import Mathlib

/-!
Verification of the auto-processing pipeline of the handwriting-OCR
Obsidian plugin.  A shallow embedding of the relevant TypeScript source:

* src/utils.ts   — getFileHash, getMetadataFilePath, validateFileSize
* src/autoProcessor.ts — AutoProcessor.shouldProcess / isProcessed /
  isSupportedFile / isInWatchFolder / markAsProcessed
* src/queue.ts   — ProcessingQueue (add / processNext / clear)
* src/api.ts     — HandwritingOCRAPI.uploadDocument / processDocument

File contents and the host vault are modelled extensionally; JavaScript
string primitives are modelled by structurally recursive Lean functions
so that every definition evaluates.
-/

/-! ## JavaScript string primitives (structural models) -/

/-- Model of a lowercase conversion of one ASCII character, as performed by
JavaScript toLowerCase on the extension strings that occur in the code. -/
def lowerChar (c : Char) : Char :=
  if 'A' ≤ c && c ≤ 'Z' then Char.ofNat (c.toNat + 32) else c

/-- Model of JavaScript string toLowerCase, applied character-wise. -/
def lowerStr (s : String) : String := ⟨s.data.map lowerChar⟩

/-- Character-list test that the first list leads the second one, used to
model JavaScript String.startsWith. -/
def leadsWith : List Char → List Char → Bool
  | [], _ => true
  | _ :: _, [] => false
  | a :: as, b :: bs => a == b && leadsWith as bs

/-- Model of JavaScript s.startsWith(pre). -/
def startsWithStr (s pre : String) : Bool := leadsWith pre.data s.data

/-- Model of the regex replace in isInWatchFolder that strips leading and
trailing slashes from the configured watch folder. -/
def trimSlashes (s : String) : String :=
  ⟨((s.data.dropWhile (· == '/')).reverse.dropWhile (· == '/')).reverse⟩

/-! ## Data model: files, settings, sidecar records -/

/-- Embedding of the Obsidian TFile handle as used by the plugin: the path,
base name, extension, parent-folder path, and the stat fields (mtime in
milliseconds and size in bytes) that feed the fingerprint. -/
structure TFile where
  path : String
  name : String
  extension : String
  parentPath : Option String
  mtime : Nat
  size : Nat
deriving DecidableEq, Repr

/-- The output action selector of the settings (new-note | append-source). -/
inductive AutoAction where
  | newNote
  | appendSource
deriving DecidableEq, Repr

/-- Embedding of HandwritingOCRSettings from src/settings.ts. -/
structure HandwritingOCRSettings where
  apiKey : String
  includeThumbnails : Bool
  noteFolder : String
  imageFolder : String
  enableAutoProcessing : Bool
  watchFolder : String
  autoProcessingAction : AutoAction
deriving DecidableEq, Repr

/-- Status stored in a sidecar record ('success' | 'error'). -/
inductive RecStatus where
  | success
  | error
deriving DecidableEq, Repr

instance : BEq RecStatus := ⟨fun a b => decide (a = b)⟩

/-- Embedding of the ProcessedMetadata interface from src/utils.ts. -/
structure ProcessedMetadata where
  processedAt : Nat
  fileHash : String
  status : RecStatus
  errorMessage : Option String
deriving DecidableEq, Repr

/-- The vault, restricted to sidecar metadata paths: an association list
from path to the parse result of the file found there.  A missing path is
a missing file; a path mapped to none is a file whose content JSON.parse
rejects; a path mapped to some m is a file that parses to the record m. -/
abbrev Vault := List (String × Option ProcessedMetadata)

/-- Association-list update used to model vault.create / vault.modify of a
sidecar file: overwrite the entry when the path exists, append otherwise. -/
def setEntry : Vault → String → Option ProcessedMetadata → Vault
  | [], p, c => [(p, c)]
  | (q, c') :: rest, p, c =>
      if q = p then (p, c) :: rest else (q, c') :: setEntry rest p c

/-! ## src/utils.ts -/

/-- Embedding of getFileHash: the mtime-size fingerprint string. -/
def getFileHash (file : TFile) : String :=
  toString file.mtime ++ "-" ++ toString file.size

/-- Embedding of getMetadataFilePath: the sidecar path
dirPath/.name.ocr-processed (no directory component when the parent path
is missing or empty, following the JavaScript falsiness checks). -/
def getMetadataFilePath (file : TFile) : String :=
  let dirPath := file.parentPath.getD ""
  let metadataFileName := "." ++ file.name ++ ".ocr-processed"
  if dirPath = "" then metadataFileName else dirPath ++ "/" ++ metadataFileName

/-- Embedding of validateFileSize: size at most 20 MB. -/
def validateFileSize (file : TFile) : Bool :=
  file.size ≤ 20 * 1024 * 1024

/-! ## src/autoProcessor.ts -/

/-- Embedding of AutoProcessor.isSupportedFile: the lowercased extension is
in the supported set. -/
def isSupportedFile (file : TFile) : Bool :=
  let supportedExtensions := ["jpg", "jpeg", "png", "gif", "bmp", "tiff",
    "tif", "heic", "webp", "pdf"]
  supportedExtensions.contains (lowerStr file.extension)

/-- Embedding of AutoProcessor.isInWatchFolder, with the JavaScript
operator precedence a or (b and c) kept intact. -/
def isInWatchFolder (settings : HandwritingOCRSettings) (file : TFile) : Bool :=
  let watchFolder := trimSlashes settings.watchFolder
  startsWithStr file.path (watchFolder ++ "/") ||
    (startsWithStr file.path watchFolder && file.parentPath == some watchFolder)

/-- Embedding of AutoProcessor.isProcessed: look up the sidecar; a missing
file or a parse failure yields false (the catch branch); otherwise compare
the stored fileHash with the current fingerprint and require status
success. -/
def isProcessed (vault : Vault) (file : TFile) : Bool :=
  match vault.lookup (getMetadataFilePath file) with
  | none => false
  | some none => false
  | some (some metadata) =>
      metadata.fileHash == getFileHash file && metadata.status == RecStatus.success

/-- Embedding of AutoProcessor.shouldProcess: the guard chain of the
source, in order. -/
def shouldProcess (settings : HandwritingOCRSettings) (vault : Vault)
    (file : TFile) : Bool :=
  if !settings.enableAutoProcessing || settings.watchFolder == "" then false
  else if !isInWatchFolder settings file then false
  else if !isSupportedFile file then false
  else if !validateFileSize file then false
  else !isProcessed vault file

/-- Embedding of AutoProcessor.markAsProcessed: build the record with the
current fingerprint and timestamp and persist it at the sidecar path,
overwriting any existing record. -/
def markAsProcessed (now : Nat) (vault : Vault) (file : TFile)
    (status : RecStatus) (errorMessage : Option String) : Vault :=
  setEntry vault (getMetadataFilePath file)
    (some { processedAt := now, fileHash := getFileHash file,
            status := status, errorMessage := errorMessage })

/-! ## src/queue.ts

The ProcessingQueue is asynchronous JavaScript: add and clear are
synchronous, processNext runs up to the await of the callback and resumes
when the callback settles.  We embed it as a labelled transition system.
The fields queue and processing are the two fields of the class; inflight
records the callbacks that have been invoked and have not yet settled, and
started records, in order, every invocation of the processing callback
(both are observations of the execution, touched exactly where the source
invokes or resumes from the callback). -/

structure QueueState where
  queue : List String
  processing : Bool
  inflight : List String
  started : List String
deriving DecidableEq, Repr

/-- One synchronous round of processNext, from its entry to the point
where it either invokes the callback on the head of the queue or returns
after resetting the processing flag on an empty queue. -/
def startNext (s : QueueState) : QueueState :=
  match s.queue with
  | [] => { s with processing := false }
  | f :: rest =>
      { s with queue := rest, processing := true,
               inflight := s.inflight ++ [f], started := s.started ++ [f] }

/-- The events the queue reacts to: an add call, the settling of an
in-flight callback (ok records whether it fulfilled or rejected; the
source catches a rejection and logs it), and a clear call. -/
inductive QEvent where
  | add (f : String)
  | complete (f : String) (ok : Bool)
  | clear
deriving DecidableEq, Repr

/-- The transition function of the queue.
add: deduplicate against the pending queue by path, append, and kick off
processNext when the processing flag is down.
complete: the continuation after the await in processNext — the try/catch
makes it identical for a fulfilled and a rejected callback — which
recurses into processNext.
clear: empty the queue and lower the processing flag; in-flight callbacks
are untouched. -/
def step (s : QueueState) : QEvent → QueueState
  | QEvent.add f =>
      if s.queue.contains f then s
      else
        let s' := { s with queue := s.queue ++ [f] }
        if s'.processing then s' else startNext s'
  | QEvent.complete f _ok =>
      if s.inflight.contains f then
        startNext { s with inflight := s.inflight.erase f }
      else s
  | QEvent.clear => { s with queue := [], processing := false }

/-- The initial state of a freshly constructed ProcessingQueue. -/
def initQ : QueueState :=
  { queue := [], processing := false, inflight := [], started := [] }

/-- Run a trace of events from a state. -/
def runFrom (s : QueueState) (tr : List QEvent) : QueueState :=
  tr.foldl step s

/-- Run a trace of events from the initial state. -/
def run (tr : List QEvent) : QueueState := runFrom initQ tr

/-- Decides that every clear event of a trace happens while no callback is
in flight. -/
def clearSafe : QueueState → List QEvent → Bool
  | _, [] => true
  | s, e :: rest =>
      (match e with
       | QEvent.clear => s.inflight.isEmpty
       | _ => true) && clearSafe (step s e) rest

/-- Decides that a trace contains no clear event. -/
def noClear (tr : List QEvent) : Bool :=
  tr.all fun e => match e with
    | QEvent.clear => false
    | _ => true

/-- The files a trace actually appends to the queue (add events that are
not dropped by the deduplication check), in arrival order. -/
def accepted : QueueState → List QEvent → List String
  | _, [] => []
  | s, QEvent.add f :: rest =>
      (if s.queue.contains f then [] else [f]) ++ accepted (step s (QEvent.add f)) rest
  | s, e :: rest => accepted (step s e) rest

/-- The mutual-exclusion invariant of the queue: an idle executor has
nothing pending and nothing in flight, and a busy executor has exactly one
callback in flight. -/
def QInv (s : QueueState) : Prop :=
  (s.processing = false → s.queue = [] ∧ s.inflight = []) ∧
  (s.processing = true → s.inflight.length = 1)

/-- Modelled from the spec: the host application is out of scope and its
derivation of the extension attribute of a file handle from the file name
is not in the source; per the spec the file-type comes from the extension,
the trailing segment of the name after its last dot (empty when the name
has no dot). -/
def extOfName (n : String) : String :=
  if n.data.contains '.' then
    ⟨(n.data.reverse.takeWhile (fun c => c != '.')).reverse⟩
  else ""

/-! ## src/api.ts -/

/-- The DocumentStatus status field ('new' | 'processing' | 'processed' |
'failed'). -/
inductive DStatus where
  | new
  | processing
  | processed
  | failed
deriving DecidableEq, Repr

/-- Embedding of the DocumentStatus response of checkStatus. -/
structure DocumentStatus where
  id : String
  status : DStatus
  pages : Option Nat
  error : Option String
deriving DecidableEq, Repr

/-- Embedding of one transcript entry of a DocumentResult. -/
structure PageResult where
  page_number : Nat
  transcript : String
deriving DecidableEq, Repr

/-- Embedding of the DocumentResult response of getResult. -/
structure DocumentResult where
  id : String
  file_name : String
  action : String
  page_count : Nat
  status : String
  results : List PageResult
  error : Option String
deriving DecidableEq, Repr

/-- Embedding of the UploadResponse body of uploadDocument. -/
structure UploadResponse where
  id : String
  status : String
  created_at : String
  updated_at : String
deriving DecidableEq, Repr

/-- The outcome of uploadDocument as a function of the HTTP response:
the thrown message, or the id of the response body.  The guard chain is
the source one, in source order. -/
def uploadOutcome (status : Nat) (body : UploadResponse) : Except String String :=
  if status = 403 then Except.error "Insufficient credits"
  else if status = 415 then Except.error "Unsupported file type"
  else if status = 413 then Except.error "File too large (max 20MB)"
  else if status = 401 then Except.error "Invalid API key"
  else if status ≠ 201 then Except.error ("Upload failed: " ++ toString status)
  else Except.ok body.id

/-- Model of the JavaScript expression status.error || 'Processing failed':
the fallback fires on an absent and on an empty error string. -/
def errorOrGeneric : Option String → String
  | none => "Processing failed"
  | some s => if s = "" then "Processing failed" else s

/-- The poll interval of processDocument, in milliseconds. -/
def pollIntervalMs : Nat := 2000

/-- The maximum number of poll attempts of processDocument. -/
def maxAttempts : Nat := 60

/-- The outcome of the polling phase of processDocument, together with the
number of checkStatus calls made and the total time slept. -/
inductive PollResult where
  | success (r : DocumentResult) (polls : Nat) (waitedMs : Nat)
  | failure (msg : String) (polls : Nat) (waitedMs : Nat)
  | timeout (polls : Nat) (waitedMs : Nat)
deriving DecidableEq, Repr

/-- Embedding of the while loop of processDocument.  statusAt i is the
response of the (i+1)-th checkStatus call; fetch is the DocumentResult
that getResult returns once the status is processed.  Each iteration
sleeps pollIntervalMs, polls, and either returns the result, throws the
server error, or retries; when the attempt budget is exhausted it throws
the timeout. -/
def pollLoop (statusAt : Nat → DocumentStatus) (fetch : DocumentResult) :
    Nat → Nat → Nat → PollResult
  | attempts, polls, waited =>
    if attempts < maxAttempts then
      let waited' := waited + pollIntervalMs
      let st := statusAt polls
      if st.status = DStatus.processed then
        PollResult.success fetch (polls + 1) waited'
      else if st.status = DStatus.failed then
        PollResult.failure (errorOrGeneric st.error) (polls + 1) waited'
      else
        pollLoop statusAt fetch (attempts + 1) (polls + 1) waited'
    else
      PollResult.timeout polls waited
termination_by attempts _ _ => maxAttempts - attempts

/-- The polling phase of processDocument, started as in the source with
attempts = 0 and nothing polled or slept yet. -/
def processPoll (statusAt : Nat → DocumentStatus) (fetch : DocumentResult) :
    PollResult :=
  pollLoop statusAt fetch 0 0 0

/-! ## Support lemmas -/

lemma recStatus_beq_iff (a b : RecStatus) : (a == b) = true ↔ a = b := by
  constructor
  · exact fun h => of_decide_eq_true h
  · exact fun h => decide_eq_true h

lemma isProcessed_eq_true_iff (v : Vault) (f : TFile) :
    isProcessed v f = true ↔
      ∃ m : ProcessedMetadata,
        v.lookup (getMetadataFilePath f) = some (some m) ∧
        m.status = RecStatus.success ∧ m.fileHash = getFileHash f := by
  unfold isProcessed
  split
  next h => simp [h]
  next h => simp [h]
  next m h =>
    simp only [h, Bool.and_eq_true, beq_iff_eq, recStatus_beq_iff,
      Option.some.injEq]
    constructor
    · rintro ⟨h1, h2⟩
      exact ⟨m, rfl, h2, h1⟩
    · rintro ⟨m', hm', h2, h1⟩
      cases hm'
      exact ⟨h1, h2⟩

lemma lookup_setEntry (v : Vault) (p : String) (c : Option ProcessedMetadata) :
    (setEntry v p c).lookup p = some c := by
  induction v with
  | nil => simp [setEntry, List.lookup]
  | cons hd tl ih =>
      obtain ⟨q, c'⟩ := hd
      by_cases h : q = p
      · simp [setEntry, h, List.lookup]
      · have hbeq : (p == q) = false := by
          simp [beq_eq_false_iff_ne]
          exact fun he => h he.symm
        simp [setEntry, h, List.lookup, hbeq, ih]

/-- C2: shouldProcess file is true exactly when auto-processing is enabled
with a configured watch folder, the file is under the watch folder, its
extension is supported, its size is at most 20 MB, and no sidecar record
with status success and a fileHash equal to the current fingerprint
exists. -/
theorem shouldProcess_characterization (s : HandwritingOCRSettings)
    (v : Vault) (f : TFile) :
    shouldProcess s v f = true ↔
      (s.enableAutoProcessing = true ∧ s.watchFolder ≠ "" ∧
       isInWatchFolder s f = true ∧ isSupportedFile f = true ∧
       validateFileSize f = true ∧
       ¬ ∃ m : ProcessedMetadata,
          v.lookup (getMetadataFilePath f) = some (some m) ∧
          m.status = RecStatus.success ∧ m.fileHash = getFileHash f) := by
  rw [← isProcessed_eq_true_iff]
  unfold shouldProcess
  cases hE : s.enableAutoProcessing with
  | false => simp [hE]
  | true =>
    by_cases hW : s.watchFolder = ""
    · simp [hE, hW]
    · have hW' : (s.watchFolder == "") = false := by
        simp [beq_eq_false_iff_ne, hW]
      cases hI : isInWatchFolder s f with
      | false => simp [hE, hW, hW', hI]
      | true =>
        cases hS : isSupportedFile f with
        | false => simp [hE, hW, hW', hI, hS]
        | true =>
          cases hV : validateFileSize f with
          | false => simp [hE, hW, hW', hI, hS, hV]
          | true =>
            cases hP : isProcessed v f <;>
              simp [hE, hW, hW', hI, hS, hV, hP]

/-- C8: reading the sidecar record returns absence both when the sidecar
file is missing and when its content does not parse; in both cases
isProcessed treats the file as unprocessed and no error reaches the
caller. -/
theorem read_record_absent_on_missing_or_unparsable (v : Vault) (f : TFile) :
    (v.lookup (getMetadataFilePath f) = none → isProcessed v f = false) ∧
    (v.lookup (getMetadataFilePath f) = some none → isProcessed v f = false) := by
  constructor <;> intro h <;> simp [isProcessed, h]

/-- Witness for the C8 theorem at concrete inputs: a vault without the
sidecar, and a vault whose sidecar content is unparsable. -/
theorem read_record_absent_witness :
    ([] : Vault).lookup
        (getMetadataFilePath ⟨"a/s.png", "s.png", "png", some "a", 1, 2⟩)
          = none ∧
    isProcessed [] ⟨"a/s.png", "s.png", "png", some "a", 1, 2⟩ = false ∧
    ([("a/.s.png.ocr-processed", none)] : Vault).lookup
        (getMetadataFilePath ⟨"a/s.png", "s.png", "png", some "a", 1, 2⟩)
          = some none ∧
    isProcessed [("a/.s.png.ocr-processed", none)]
        ⟨"a/s.png", "s.png", "png", some "a", 1, 2⟩ = false := by
  refine ⟨by decide, ?_, by decide, ?_⟩
  · exact (read_record_absent_on_missing_or_unparsable [] _).1 (by decide)
  · exact (read_record_absent_on_missing_or_unparsable
      [("a/.s.png.ocr-processed", none)] _).2 (by decide)

/-- C5: a sidecar record with status error never makes isProcessed true,
so shouldProcess is exactly the local eligibility conjunction and the file
stays eligible for reprocessing, whatever the stored fingerprint. -/
theorem error_record_never_blocks (s : HandwritingOCRSettings) (v : Vault)
    (f : TFile) (m : ProcessedMetadata)
    (hl : v.lookup (getMetadataFilePath f) = some (some m))
    (he : m.status = RecStatus.error) :
    isProcessed v f = false ∧
    shouldProcess s v f =
      (s.enableAutoProcessing && !(s.watchFolder == "") &&
       isInWatchFolder s f && isSupportedFile f && validateFileSize f) := by
  have hp : isProcessed v f = false := by
    simp [isProcessed, hl, he]
  refine ⟨hp, ?_⟩
  cases hE : s.enableAutoProcessing <;>
    cases hW : s.watchFolder == "" <;>
      cases hI : isInWatchFolder s f <;>
        cases hS : isSupportedFile f <;>
          cases hV : validateFileSize f <;>
            simp [shouldProcess, hE, hW, hI, hS, hV, hp]

/-- Witness for the C5 theorem: an error record whose fingerprint matches
the current one, and the file is still reported eligible. -/
theorem error_record_never_blocks_witness :
    isProcessed
        [("in/.s.png.ocr-processed",
          some ⟨7, "1-2", RecStatus.error, some "boom"⟩)]
        ⟨"in/s.png", "s.png", "png", some "in", 1, 2⟩ = false ∧
    shouldProcess ⟨"", false, "", "", true, "in", AutoAction.newNote⟩
        [("in/.s.png.ocr-processed",
          some ⟨7, "1-2", RecStatus.error, some "boom"⟩)]
        ⟨"in/s.png", "s.png", "png", some "in", 1, 2⟩ = true := by
  have h := error_record_never_blocks
    ⟨"", false, "", "", true, "in", AutoAction.newNote⟩
    [("in/.s.png.ocr-processed",
      some ⟨7, "1-2", RecStatus.error, some "boom"⟩)]
    ⟨"in/s.png", "s.png", "png", some "in", 1, 2⟩
    ⟨7, "1-2", RecStatus.error, some "boom"⟩ (by decide) rfl
  exact ⟨h.1, by rw [h.2]; decide⟩

/-- C4: after markAsProcessed writes a success record for f, shouldProcess
is false for any later handle with the same sidecar path and an unchanged
fingerprint, and true again for a later handle whose fingerprint differs,
provided the local eligibility conditions hold for it. -/
theorem success_record_idempotence (now : Nat) (s : HandwritingOCRSettings)
    (v : Vault) (f f1 f2 : TFile)
    (hpath1 : getMetadataFilePath f1 = getMetadataFilePath f)
    (hhash1 : getFileHash f1 = getFileHash f)
    (hpath2 : getMetadataFilePath f2 = getMetadataFilePath f)
    (hhash2 : getFileHash f2 ≠ getFileHash f)
    (hE : s.enableAutoProcessing = true) (hW : s.watchFolder ≠ "")
    (hI : isInWatchFolder s f2 = true) (hS : isSupportedFile f2 = true)
    (hV : validateFileSize f2 = true) :
    shouldProcess s (markAsProcessed now v f RecStatus.success none) f1 = false ∧
    shouldProcess s (markAsProcessed now v f RecStatus.success none) f2 = true := by
  have hp1 : isProcessed (markAsProcessed now v f RecStatus.success none) f1
      = true := by
    simp [isProcessed, markAsProcessed, hpath1, lookup_setEntry, hhash1]
  have hp2 : isProcessed (markAsProcessed now v f RecStatus.success none) f2
      = false := by
    simp [isProcessed, markAsProcessed, hpath2, lookup_setEntry]
    intro h
    exact absurd h.symm hhash2
  constructor
  · cases hE' : s.enableAutoProcessing <;>
      cases hW' : s.watchFolder == "" <;>
        cases hI' : isInWatchFolder s f1 <;>
          cases hS' : isSupportedFile f1 <;>
            cases hV' : validateFileSize f1 <;>
              simp [shouldProcess, hE', hW', hI', hS', hV', hp1]
  · have hW'' : (s.watchFolder == "") = false := by
      simp [beq_eq_false_iff_ne, hW]
    simp [shouldProcess, hE, hW'', hI, hS, hV, hp2]

/-- Witness for the C4 theorem: a concrete eligible png under the watch
folder, re-checked unchanged and re-checked after an mtime bump. -/
theorem success_record_idempotence_witness :
    shouldProcess ⟨"", false, "", "", true, "inbox", AutoAction.newNote⟩
        (markAsProcessed 9 []
          ⟨"inbox/scan.png", "scan.png", "png", some "inbox", 100, 5⟩
          RecStatus.success none)
        ⟨"inbox/scan.png", "scan.png", "png", some "inbox", 100, 5⟩ = false ∧
    shouldProcess ⟨"", false, "", "", true, "inbox", AutoAction.newNote⟩
        (markAsProcessed 9 []
          ⟨"inbox/scan.png", "scan.png", "png", some "inbox", 100, 5⟩
          RecStatus.success none)
        ⟨"inbox/scan.png", "scan.png", "png", some "inbox", 200, 5⟩ = true :=
  success_record_idempotence 9
    ⟨"", false, "", "", true, "inbox", AutoAction.newNote⟩ []
    ⟨"inbox/scan.png", "scan.png", "png", some "inbox", 100, 5⟩
    ⟨"inbox/scan.png", "scan.png", "png", some "inbox", 100, 5⟩
    ⟨"inbox/scan.png", "scan.png", "png", some "inbox", 200, 5⟩
    (by decide) (by decide) (by decide) (by decide)
    (by decide) (by decide) (by decide) (by decide) (by decide)

/-- C6: uploadDocument maps the HTTP status of the response to the thrown
error: 401 invalid key, 403 insufficient credits, 413 file too large, 415
unsupported type, any other non-2xx the generic upload failure carrying
the status; a 201 response yields the id of the body. -/
theorem upload_status_error_mapping :
    (∀ b : UploadResponse, uploadOutcome 401 b = Except.error "Invalid API key") ∧
    (∀ b : UploadResponse, uploadOutcome 403 b = Except.error "Insufficient credits") ∧
    (∀ b : UploadResponse, uploadOutcome 413 b = Except.error "File too large (max 20MB)") ∧
    (∀ b : UploadResponse, uploadOutcome 415 b = Except.error "Unsupported file type") ∧
    (∀ (st : Nat) (b : UploadResponse), (st < 200 ∨ 300 ≤ st) →
        st ≠ 401 → st ≠ 403 → st ≠ 413 → st ≠ 415 →
        uploadOutcome st b = Except.error ("Upload failed: " ++ toString st)) ∧
    (∀ b : UploadResponse, uploadOutcome 201 b = Except.ok b.id) := by
  refine ⟨fun b => rfl, fun b => rfl, fun b => rfl, fun b => rfl,
    ?_, fun b => rfl⟩
  intro st b h2xx h401 h403 h413 h415
  have h201 : st ≠ 201 := by omega
  simp [uploadOutcome, h401, h403, h413, h415, h201]

/-- Witness for the C6 theorem: the generic branch applied at status 500. -/
theorem upload_status_error_mapping_witness :
    uploadOutcome 500 ⟨"j1", "new", "t0", "t1"⟩ =
      Except.error ("Upload failed: " ++ toString 500) :=
  upload_status_error_mapping.2.2.2.2.1 500 ⟨"j1", "new", "t0", "t1"⟩
    (by omega) (by decide) (by decide) (by decide) (by decide)

/-! ## Polling lemmas for processDocument -/

lemma pollLoop_step_processing (statusAt : Nat → DocumentStatus)
    (fetch : DocumentResult) (a p w : Nat) (h : a < maxAttempts)
    (hst : (statusAt p).status = DStatus.processing) :
    pollLoop statusAt fetch a p w =
      pollLoop statusAt fetch (a + 1) (p + 1) (w + pollIntervalMs) := by
  rw [pollLoop]
  simp [h, hst]

lemma pollLoop_stops (statusAt : Nat → DocumentStatus)
    (fetch : DocumentResult) (a p w : Nat) (h : ¬ a < maxAttempts) :
    pollLoop statusAt fetch a p w = PollResult.timeout p w := by
  rw [pollLoop]
  simp [h]

lemma pollLoop_skip (statusAt : Nat → DocumentStatus) (fetch : DocumentResult) :
    ∀ (k a p w : Nat), a + k ≤ maxAttempts →
      (∀ i, i < k → (statusAt (p + i)).status = DStatus.processing) →
      pollLoop statusAt fetch a p w =
        pollLoop statusAt fetch (a + k) (p + k) (w + pollIntervalMs * k) := by
  intro k
  induction k with
  | zero => intro a p w _ _; simp
  | succ n ih =>
      intro a p w hle hproc
      have ha : a < maxAttempts := by omega
      rw [pollLoop_step_processing statusAt fetch a p w ha
        (by simpa using hproc 0 (by omega))]
      rw [ih (a + 1) (p + 1) (w + pollIntervalMs) (by omega)
        (fun i hi => by
          have := hproc (i + 1) (by omega)
          simpa [Nat.add_assoc, Nat.add_comm 1 i] using this)]
      have e1 : a + 1 + n = a + (n + 1) := by omega
      have e2 : p + 1 + n = p + (n + 1) := by omega
      have e3 : w + pollIntervalMs + pollIntervalMs * n
          = w + pollIntervalMs * (n + 1) := by
        rw [Nat.mul_succ]
        omega
      rw [e1, e2, e3]

/-- C3: under a job that never leaves processing, the polling phase of
processDocument times out after exactly maxAttempts = 60 polls, each
preceded by a pollIntervalMs = 2000 sleep; a poll reporting processed
returns the fetched result immediately; a poll reporting failed throws the
server error text, with the generic fallback on an absent or empty error
field. -/
theorem processDocument_polling_bounds (statusAt : Nat → DocumentStatus)
    (fetch : DocumentResult) :
    ((∀ i, (statusAt i).status = DStatus.processing) →
      processPoll statusAt fetch =
        PollResult.timeout maxAttempts (pollIntervalMs * maxAttempts)) ∧
    (∀ k, k < maxAttempts →
      (∀ i, i < k → (statusAt i).status = DStatus.processing) →
      ((statusAt k).status = DStatus.processed →
        processPoll statusAt fetch =
          PollResult.success fetch (k + 1) (pollIntervalMs * (k + 1))) ∧
      ((statusAt k).status = DStatus.failed →
        processPoll statusAt fetch =
          PollResult.failure (errorOrGeneric (statusAt k).error) (k + 1)
            (pollIntervalMs * (k + 1)))) ∧
    (errorOrGeneric none = "Processing failed" ∧
     ∀ msg, msg ≠ "" → errorOrGeneric (some msg) = msg) := by
  refine ⟨?_, ?_, rfl, ?_⟩
  · intro hall
    unfold processPoll
    rw [pollLoop_skip statusAt fetch maxAttempts 0 0 0 (by omega)
      (fun i _ => by simpa using hall i)]
    rw [pollLoop_stops statusAt fetch _ _ _ (by omega)]
    simp
  · intro k hk hbefore
    have hskip : processPoll statusAt fetch =
        pollLoop statusAt fetch k k (pollIntervalMs * k) := by
      unfold processPoll
      rw [pollLoop_skip statusAt fetch k 0 0 0 (by omega)
        (fun i hi => by simpa using hbefore i hi)]
      simp
    constructor
    · intro hdone
      rw [hskip, pollLoop]
      simp [hk, hdone, Nat.mul_add]
    · intro hfail
      rw [hskip, pollLoop]
      simp [hk, hfail, Nat.mul_add]
  · intro msg hmsg
    simp [errorOrGeneric, hmsg]

/-- Witness for the C3 theorem: a job stuck in processing times out at 60
polls and 120000 milliseconds slept; a job that fails at the third poll
with an empty error string throws the generic message. -/
theorem processDocument_polling_bounds_witness :
    processPoll (fun _ => ⟨"d1", DStatus.processing, none, none⟩)
        ⟨"d1", "f.pdf", "transcribe", 1, "processed", [], none⟩ =
      PollResult.timeout 60 120000 ∧
    processPoll (fun i => if i < 2 then ⟨"d1", DStatus.processing, none, none⟩
          else ⟨"d1", DStatus.failed, none, some ""⟩)
        ⟨"d1", "f.pdf", "transcribe", 1, "processed", [], none⟩ =
      PollResult.failure "Processing failed" 3 6000 := by
  constructor
  · have h := (processDocument_polling_bounds
      (fun _ => ⟨"d1", DStatus.processing, none, none⟩)
      ⟨"d1", "f.pdf", "transcribe", 1, "processed", [], none⟩).1
      (fun i => rfl)
    simpa [maxAttempts, pollIntervalMs] using h
  · have h := ((processDocument_polling_bounds
      (fun i => if i < 2 then ⟨"d1", DStatus.processing, none, none⟩
          else ⟨"d1", DStatus.failed, none, some ""⟩)
      ⟨"d1", "f.pdf", "transcribe", 1, "processed", [], none⟩).2.1
      2 (by decide) (fun i hi => by
        interval_cases i <;> rfl)).2 (by rfl)
    simpa [pollIntervalMs, errorOrGeneric] using h

/-! ## Queue invariants -/

lemma qinv_init : QInv initQ :=
  ⟨fun _ => ⟨rfl, rfl⟩, fun h => by simp [initQ] at h⟩

lemma qinv_startNext (s : QueueState) (h : s.inflight = []) :
    QInv (startNext s) := by
  obtain ⟨q, p, infl, st⟩ := s
  simp only at h
  subst h
  cases q with
  | nil =>
      exact ⟨fun _ => ⟨rfl, rfl⟩, fun hbad => by simp [startNext] at hbad⟩
  | cons g t =>
      exact ⟨fun hbad => by simp [startNext] at hbad, fun _ => rfl⟩

lemma qinv_step (s : QueueState) (e : QEvent) (hs : QInv s)
    (hc : e = QEvent.clear → s.inflight = []) : QInv (step s e) := by
  obtain ⟨q, p, infl, st⟩ := s
  obtain ⟨h1, h2⟩ := hs
  simp only at h1 h2
  cases e with
  | add f =>
      by_cases hm : f ∈ q
      · simpa [step, hm] using And.intro h1 h2
      · cases p with
        | true =>
            have hstep : step ⟨q, true, infl, st⟩ (QEvent.add f)
                = ⟨q ++ [f], true, infl, st⟩ := by
              simp [step, hm]
            rw [hstep]
            exact ⟨fun hbad => by simp at hbad, fun _ => h2 rfl⟩
        | false =>
            obtain ⟨hq, hi⟩ := h1 rfl
            subst hq
            subst hi
            have hstep : step ⟨[], false, [], st⟩ (QEvent.add f)
                = ⟨[], true, [f], st ++ [f]⟩ := by
              simp [step, startNext]
            rw [hstep]
            exact ⟨fun hbad => by simp at hbad, fun _ => rfl⟩
  | complete f ok =>
      by_cases hm : f ∈ infl
      · cases p with
        | false =>
            obtain ⟨hq, hi⟩ := h1 rfl
            subst hi
            simp at hm
        | true =>
            have hlen : infl.length = 1 := h2 rfl
            obtain ⟨g, hg⟩ := List.length_eq_one.1 hlen
            subst hg
            have hf : f = g := by simpa using hm
            subst hf
            have hstep : step ⟨q, true, [f], st⟩ (QEvent.complete f ok)
                = startNext ⟨q, true, [], st⟩ := by
              simp [step]
            rw [hstep]
            exact qinv_startNext _ rfl
      · simpa [step, hm] using And.intro h1 h2
  | clear =>
      have hi := hc rfl
      simp only at hi
      exact ⟨fun _ => ⟨rfl, hi⟩, fun hbad => by simp [step] at hbad⟩

lemma qinv_run : ∀ (tr : List QEvent) (s : QueueState), QInv s →
    clearSafe s tr = true → QInv (runFrom s tr) := by
  intro tr
  induction tr with
  | nil => intro s hs _; exact hs
  | cons e rest ih =>
      intro s hs hsafe
      cases e with
      | add f =>
          simp only [clearSafe, Bool.true_and] at hsafe
          exact ih _ (qinv_step s _ hs (fun he => QEvent.noConfusion he)) hsafe
      | complete f ok =>
          simp only [clearSafe, Bool.true_and] at hsafe
          exact ih _ (qinv_step s _ hs (fun he => QEvent.noConfusion he)) hsafe
      | clear =>
          simp only [clearSafe, Bool.and_eq_true] at hsafe
          obtain ⟨hie, hrest⟩ := hsafe
          refine ih _ (qinv_step s _ hs (fun _ => ?_)) hrest
          cases hinfl : s.inflight with
          | nil => rfl
          | cons a l => rw [hinfl] at hie; simp at hie

lemma startNext_concat (s : QueueState) :
    (startNext s).started ++ (startNext s).queue = s.started ++ s.queue := by
  obtain ⟨q, p, infl, st⟩ := s
  cases q with
  | nil => simp [startNext]
  | cons g t => simp [startNext]

lemma step_add_concat (s : QueueState) (f : String) :
    (step s (QEvent.add f)).started ++ (step s (QEvent.add f)).queue
      = s.started ++ s.queue ++ (if s.queue.contains f then [] else [f]) := by
  by_cases hm : f ∈ s.queue
  · have hcont : s.queue.contains f = true := by simpa using hm
    simp [step, hm, hcont]
  · have hcont : s.queue.contains f = false := by simpa using hm
    cases hp : s.processing with
    | true => simp [step, hm, hcont, hp]
    | false =>
        have hstep : step s (QEvent.add f)
            = startNext { s with queue := s.queue ++ [f] } := by
          simp [step, hm, hp]
        rw [hstep, startNext_concat, hcont]
        simp [List.append_assoc]

lemma step_complete_concat (s : QueueState) (f : String) (ok : Bool) :
    (step s (QEvent.complete f ok)).started
        ++ (step s (QEvent.complete f ok)).queue
      = s.started ++ s.queue := by
  by_cases hm : f ∈ s.inflight
  · have hstep : step s (QEvent.complete f ok)
        = startNext { s with inflight := s.inflight.erase f } := by
      simp [step, hm]
    rw [hstep, startNext_concat]
  · simp [step, hm]

lemma fifo_run : ∀ (tr : List QEvent) (s : QueueState), noClear tr = true →
    (runFrom s tr).started ++ (runFrom s tr).queue
      = s.started ++ s.queue ++ accepted s tr := by
  intro tr
  induction tr with
  | nil => intro s _; simp [runFrom, accepted]
  | cons e rest ih =>
      intro s hnc
      rw [noClear, List.all_cons, Bool.and_eq_true] at hnc
      obtain ⟨he, hrest⟩ := hnc
      cases e with
      | add f =>
          have hrun : runFrom s (QEvent.add f :: rest)
              = runFrom (step s (QEvent.add f)) rest := rfl
          have hacc : accepted s (QEvent.add f :: rest)
              = (if s.queue.contains f then [] else [f])
                  ++ accepted (step s (QEvent.add f)) rest := rfl
          rw [hrun, ih _ hrest, step_add_concat, hacc]
          simp [List.append_assoc]
      | complete f ok =>
          have hrun : runFrom s (QEvent.complete f ok :: rest)
              = runFrom (step s (QEvent.complete f ok)) rest := rfl
          have hacc : accepted s (QEvent.complete f ok :: rest)
              = accepted (step s (QEvent.complete f ok)) rest := rfl
          rw [hrun, ih _ hrest, step_complete_concat, hacc]
      | clear => exact Bool.noConfusion he

/-- C1 (amended): in every event sequence in which clear is only invoked
while no callback is in flight, at most one processing callback is in
flight at any point; in clear-free sequences the callbacks are invoked in
exactly the arrival order of the accepted adds, the pending queue holding
the not-yet-started suffix; and a callback failure is handled identically
to a success — in particular, when a file is pending, the completion of a
failed callback still invokes the callback on the next pending file. -/
theorem queue_serialization_amended :
    (∀ tr : List QEvent, clearSafe initQ tr = true →
        (run tr).inflight.length ≤ 1) ∧
    (∀ tr : List QEvent, noClear tr = true →
        (run tr).started ++ (run tr).queue = accepted initQ tr) ∧
    (∀ (s : QueueState) (f : String),
        step s (QEvent.complete f false) = step s (QEvent.complete f true)) ∧
    (∀ (s : QueueState) (f g : String) (rest : List String),
        s.inflight.contains f = true → s.queue = g :: rest →
        (step s (QEvent.complete f false)).started = s.started ++ [g]) := by
  refine ⟨?_, ?_, fun s f => rfl, ?_⟩
  · intro tr htr
    obtain ⟨h1, h2⟩ := qinv_run tr initQ qinv_init htr
    show (runFrom initQ tr).inflight.length ≤ 1
    cases hp : (runFrom initQ tr).processing with
    | false => rw [(h1 hp).2]; simp
    | true => exact (h2 hp).le
  · intro tr htr
    have h := fifo_run tr initQ htr
    simpa [run, initQ] using h
  · intro s f g rest hin hq
    have hm : f ∈ s.inflight := by simpa using hin
    simp [step, hm, startNext, hq]

/-- The C1 claim as frozen is false on the code: after add a, clear,
add b — with the callback on a never having settled — both callbacks are
in flight at once, because clear lowered the processing flag while a was
still running and the second add therefore started a second drain. -/
theorem queue_serialization_counterexample :
    (run [QEvent.add "a", QEvent.clear, QEvent.add "b"]).inflight
      = ["a", "b"] ∧
    (run [QEvent.add "a", QEvent.clear, QEvent.add "b"]).inflight.length
      = 2 := by
  constructor <;> rfl

/-- Witness for the C1 theorem on concrete traces and states. -/
theorem queue_serialization_amended_witness :
    (run [QEvent.add "a", QEvent.complete "a" false,
          QEvent.add "b"]).inflight.length ≤ 1 ∧
    (run [QEvent.add "a", QEvent.complete "a" false, QEvent.add "b"]).started
        ++ (run [QEvent.add "a", QEvent.complete "a" false,
                 QEvent.add "b"]).queue
      = accepted initQ [QEvent.add "a", QEvent.complete "a" false,
                        QEvent.add "b"] ∧
    (step ⟨["g"], true, ["f"], ["f"]⟩ (QEvent.complete "f" false)).started
      = ["f"] ++ ["g"] := by
  refine ⟨queue_serialization_amended.1 _ (by decide),
    queue_serialization_amended.2.1 _ (by decide),
    queue_serialization_amended.2.2.2 ⟨["g"], true, ["f"], ["f"]⟩
      "f" "g" [] (by decide) rfl⟩

/-! ## Queue deduplication -/

lemma nodup_startNext (s : QueueState) (h : s.queue.Nodup) :
    (startNext s).queue.Nodup := by
  obtain ⟨q, p, infl, st⟩ := s
  cases q with
  | nil => exact h
  | cons g t => exact h.of_cons

lemma nodup_step (s : QueueState) (e : QEvent) (h : s.queue.Nodup) :
    (step s e).queue.Nodup := by
  cases e with
  | add f =>
      by_cases hm : f ∈ s.queue
      · simpa [step, hm] using h
      · have h' : (s.queue ++ [f]).Nodup := by
          rw [List.nodup_append]
          refine ⟨h, by simp, ?_⟩
          intro a ha hb
          rw [List.mem_singleton] at hb
          subst hb
          exact hm ha
        cases hp : s.processing with
        | true => simpa [step, hm, hp] using h'
        | false =>
            have := nodup_startNext { s with queue := s.queue ++ [f] } h'
            simpa [step, hm, hp] using this
  | complete f ok =>
      by_cases hm : f ∈ s.inflight
      · have := nodup_startNext { s with inflight := s.inflight.erase f } h
        simpa [step, hm] using this
      · simpa [step, hm] using h
  | clear => simp [step]

lemma nodup_run : ∀ (tr : List QEvent) (s : QueueState), s.queue.Nodup →
    (runFrom s tr).queue.Nodup := by
  intro tr
  induction tr with
  | nil => intro s h; exact h
  | cons e rest ih => intro s h; exact ih (step s e) (nodup_step s e h)

/-- C7: the pending queue never holds two entries with the same path — an
add whose path is already pending is a no-op — and a double add of the
same path while another file is processing leads to exactly one callback
invocation for it. -/
theorem queue_dedup_invariant :
    (∀ tr : List QEvent, (run tr).queue.Nodup) ∧
    (∀ (s : QueueState) (f : String), f ∈ s.queue →
        step s (QEvent.add f) = s) ∧
    (run [QEvent.add "b", QEvent.add "a", QEvent.add "a",
          QEvent.complete "b" true, QEvent.complete "a" true]).started
      = ["b", "a"] := by
  refine ⟨?_, ?_, by rfl⟩
  · intro tr
    exact nodup_run tr initQ List.nodup_nil
  · intro s f h
    simp [step, h]

/-- Witness for the C7 theorem at a concrete trace and a concrete busy
state holding the added path. -/
theorem queue_dedup_invariant_witness :
    (run [QEvent.add "a", QEvent.clear, QEvent.add "a"]).queue.Nodup ∧
    step ⟨["a"], true, ["b"], ["b"]⟩ (QEvent.add "a")
      = ⟨["a"], true, ["b"], ["b"]⟩ :=
  ⟨queue_dedup_invariant.1 _,
   queue_dedup_invariant.2.1 ⟨["a"], true, ["b"], ["b"]⟩ "a" (by decide)⟩

/-- C10: an idle add moves the file straight out of the pending queue and
into the in-flight callback, so the file being processed is not pending;
an add of the same path while the executor is busy appends it again
(deduplication consults only the pending queue, not the in-flight file);
and after the in-flight callback completes the re-added file is invoked a
second time. -/
theorem inflight_not_pending_readd :
    (∀ (s : QueueState) (f : String), s.processing = false → s.queue = [] →
        step s (QEvent.add f) =
          { queue := [], processing := true, inflight := s.inflight ++ [f],
            started := s.started ++ [f] }) ∧
    (∀ (s : QueueState) (f : String), s.processing = true →
        s.queue.contains f = false →
        (step s (QEvent.add f)).queue = s.queue ++ [f]) ∧
    ((run [QEvent.add "f", QEvent.add "f", QEvent.complete "f" true]).started
        = ["f", "f"] ∧
     (run [QEvent.add "f", QEvent.add "f",
           QEvent.complete "f" true]).inflight = ["f"]) := by
  refine ⟨?_, ?_, by constructor <;> rfl⟩
  · rintro ⟨q, p, infl, st⟩ f hp hq
    simp only at hp hq
    subst hp
    subst hq
    rfl
  · intro s f hp hcont
    have hm : f ∉ s.queue := by simpa using hcont
    simp [step, hm, hp]

/-- Witness for the C10 theorem at a concrete idle state and a concrete
busy state whose in-flight file is re-added. -/
theorem inflight_not_pending_readd_witness :
    step ⟨[], false, [], []⟩ (QEvent.add "x")
      = { queue := [], processing := true, inflight := ["x"],
          started := ["x"] } ∧
    (step ⟨["y"], true, ["x"], ["x"]⟩ (QEvent.add "x")).queue
      = ["y"] ++ ["x"] :=
  ⟨inflight_not_pending_readd.1 ⟨[], false, [], []⟩ "x" rfl rfl,
   inflight_not_pending_readd.2.1 ⟨["y"], true, ["x"], ["x"]⟩ "x"
     rfl (by decide)⟩

/-! ## Sidecar naming -/

lemma takeWhile_append_stop (p : Char → Bool) (xs : List Char) (y : Char)
    (ys : List Char) (h1 : ∀ c ∈ xs, p c = true) (h2 : p y = false) :
    (xs ++ y :: ys).takeWhile p = xs := by
  induction xs with
  | nil => simp [List.takeWhile, h2]
  | cons a l ih =>
      simp only [List.cons_append, List.takeWhile_cons]
      rw [h1 a (by simp)]
      simp [ih fun c hc => h1 c (by simp [hc])]

lemma extOfName_sidecar (base : String) :
    extOfName ("." ++ base ++ ".ocr-processed") = "ocr-processed" := by
  have hdata : ("." ++ base ++ ".ocr-processed").data
      = ('.' :: base.data) ++ ('.' :: "ocr-processed".data) := by
    rw [String.data_append, String.data_append]
    rfl
  unfold extOfName
  rw [hdata]
  rw [if_pos (by simp)]
  rw [List.reverse_append, List.reverse_cons, List.reverse_cons,
    List.append_assoc, List.singleton_append]
  rw [takeWhile_append_stop _ _ _ _ (by decide) (by decide)]
  decide

/-- C9: the sidecar written for a file is named .<filename>.ocr-processed,
next to the file; any file handle carrying a name of that shape has
extension ocr-processed, which is not in the supported set, so
shouldProcess always rejects a sidecar file — writing a record can never
enqueue the record file itself. -/
theorem sidecar_not_reprocessed :
    (∀ f : TFile,
      (f.parentPath.getD "" = "" →
        getMetadataFilePath f = "." ++ f.name ++ ".ocr-processed") ∧
      (f.parentPath.getD "" ≠ "" →
        getMetadataFilePath f
          = f.parentPath.getD "" ++ "/"
              ++ ("." ++ f.name ++ ".ocr-processed"))) ∧
    (∀ (settings : HandwritingOCRSettings) (vault : Vault) (g : TFile)
        (base : String),
      g.name = "." ++ base ++ ".ocr-processed" →
      g.extension = extOfName g.name →
      isSupportedFile g = false ∧ shouldProcess settings vault g = false) := by
  constructor
  · intro f
    constructor
    · intro h
      simp [getMetadataFilePath, h]
    · intro h
      simp [getMetadataFilePath, h]
  · intro settings vault g base hname hwf
    have hext : g.extension = "ocr-processed" := by
      rw [hwf, hname, extOfName_sidecar]
    have hsup : isSupportedFile g = false := by
      simp only [isSupportedFile, hext]
      decide
    refine ⟨hsup, ?_⟩
    cases hE : settings.enableAutoProcessing <;>
      cases hW : settings.watchFolder == "" <;>
        cases hI : isInWatchFolder settings g <;>
          simp [shouldProcess, hE, hW, hI, hsup]

/-- Witness for the C9 theorem: the sidecar path of a concrete watched
file, and a concrete file handle bearing the sidecar name, rejected. -/
theorem sidecar_not_reprocessed_witness :
    getMetadataFilePath ⟨"in/s.png", "s.png", "png", some "in", 1, 2⟩
      = "in" ++ "/" ++ ("." ++ "s.png" ++ ".ocr-processed") ∧
    isSupportedFile ⟨"in/.s.png.ocr-processed", ".s.png.ocr-processed",
        "ocr-processed", some "in", 3, 4⟩ = false ∧
    shouldProcess ⟨"", false, "", "", true, "in", AutoAction.newNote⟩ []
      ⟨"in/.s.png.ocr-processed", ".s.png.ocr-processed",
        "ocr-processed", some "in", 3, 4⟩ = false := by
  have h2 := (sidecar_not_reprocessed.2
    ⟨"", false, "", "", true, "in", AutoAction.newNote⟩ []
    ⟨"in/.s.png.ocr-processed", ".s.png.ocr-processed",
      "ocr-processed", some "in", 3, 4⟩ "s.png" (by decide) (by decide))
  exact ⟨(sidecar_not_reprocessed.1
    ⟨"in/s.png", "s.png", "png", some "in", 1, 2⟩).2 (by decide),
    h2.1, h2.2⟩
